import Mathlib

/-!
Verification of the staking ledger, election, reward and slashing engine
underlying `src/frame/staking/src/benchmarking.rs`.

Balances, account ids, eras and session indices are modelled as `Nat`.
The benchmark harness itself (fixture construction, the ledgers it pokes
into storage, the nominator target-selection loop) is embedded from the
source file.  The pallet operations the harness calls (`bond`, `unbond`,
`rebond`, `withdraw_unbonded`, `nominate`, `new_era`, `payout_validator`,
`cancel_deferred_slash`, `do_slash`) are not part of the source tree, so
they are modelled from the specification, as flagged on each definition.
-/

namespace Staking

/-- An unlocking chunk of a staking ledger: `value` units scheduled to be
unlocked at target `era`.  Mirrors `UnlockChunk` as constructed in
`src/frame/staking/src/benchmarking.rs` (rebond and do_slash fixtures). -/
structure UnlockChunk where
  value : Nat
  era : Nat
deriving DecidableEq, Repr, Inhabited

/-- The staking ledger: stash id, `total` locked balance, `active` bonded
balance, and the schedule of unlocking chunks (ordered by target era).
Mirrors `StakingLedger` as used by the benchmarks. -/
structure StakingLedger where
  stash : Nat
  total : Nat
  active : Nat
  unlocking : List UnlockChunk
deriving DecidableEq, Repr, Inhabited

/-- Sum of the values of a list of unlocking chunks. -/
def sumUnlocking (l : List UnlockChunk) : Nat :=
  (l.map (fun c => c.value)).sum

/-- The ledger invariant of the specification: `active ≤ total` and
`total = active + Σ unlocking.value`. -/
def wfLedger (L : StakingLedger) : Prop :=
  L.active ≤ L.total ∧ L.total = L.active + sumUnlocking L.unlocking

instance (L : StakingLedger) : Decidable (wfLedger L) := by
  unfold wfLedger
  infer_instance

/-- Typed errors of the staking operations, as named by the specification. -/
inductive StakingError where
  | EmptyTargets
  | TooManyTargets
  | DuplicateTarget
  | NotController
  | NotSortedAndUnique
  | ErrorsAlreadyApplied
  | InvalidSlashIndex
  | AlreadyClaimed
  | InvalidEraToReward
  | NotEnoughValidators
  | BadOrigin
deriving DecidableEq, Repr

/-- Modelled from the spec: the Currency collaborator's minimum balance
(an abstract positive unit; `1` here). -/
def minimumBalance : Nat := 1

/-- The amount bonded by `create_stash_controller`:
`T::Currency::minimum_balance() * 10` (benchmarking.rs line 46). -/
def bondAmount : Nat := minimumBalance * 10

/-- Modelled from the spec: the `MAX_NOMINATIONS` bound on nomination
targets (the concrete value used by the staking pallet). -/
def MAX_NOMINATIONS : Nat := 16

/-- Modelled from the spec: `BondingDuration`, the minimum number of eras
an unbonded amount must wait before withdrawal (a positive constant). -/
def BondingDuration : Nat := 3

/-- Modelled from the spec: `bond` creates a ledger with
`active = total = amount` and an empty unlocking schedule. -/
def bond (stash amount : Nat) : StakingLedger :=
  { stash := stash, total := amount, active := amount, unlocking := [] }

/-- Modelled from the spec: `bond_extra` adds to both `active` and `total`. -/
def bondExtra (L : StakingLedger) (amount : Nat) : StakingLedger :=
  { L with total := L.total + amount, active := L.active + amount }

/-- Modelled from the spec: `unbond` reduces `active` by
`min(amount, active)` and appends an unlocking entry targeting era
`cur + BondingDuration`, merging with an existing last entry that targets
the same era. -/
def unbond (L : StakingLedger) (amount cur dur : Nat) : StakingLedger :=
  let v := min amount L.active
  let e := cur + dur
  let chunks :=
    match L.unlocking.getLast? with
    | some c =>
        if c.era = e then
          L.unlocking.dropLast ++ [⟨c.value + v, e⟩]
        else
          L.unlocking ++ [⟨v, e⟩]
    | none => [⟨v, e⟩]
  { L with active := L.active - v, unlocking := chunks }

/-- Modelled from the spec: `withdraw_unbonded` removes every unlocking
entry whose target era is `≤` the current era, reducing `total` by the
sum of the removed values. -/
def withdrawUnbonded (L : StakingLedger) (cur : Nat) : StakingLedger :=
  { L with
    total := L.total - sumUnlocking (L.unlocking.filter (fun c => decide (c.era ≤ cur))),
    unlocking := L.unlocking.filter (fun c => decide (cur < c.era)) }

/-- Per-stash account state around a ledger: the ledger itself plus the
validator/nominator preferences that are purged when the stash is reaped. -/
structure AccountState where
  ledger : Option StakingLedger
  hasValidatorPrefs : Bool
  nominations : Option (List Nat)
deriving DecidableEq, Repr

/-- Modelled from the spec: the `withdraw_unbonded` call at the account
level.  If the resulting `total` is `0` the ledger and the associated
preferences are fully purged (the stash is reaped). -/
def withdrawUnbondedCall (st : AccountState) (cur : Nat) :
    Except StakingError AccountState :=
  match st.ledger with
  | none => .error .NotController
  | some L =>
      let L2 := withdrawUnbonded L cur
      if L2.total = 0 then .ok ⟨none, false, none⟩
      else .ok { st with ledger := some L2 }

/-- Modelled from the spec: the chunk-consumption loop of `rebond`.  The
most recently added entries (the list suffix) are consumed first: the
recursive call consumes from the later entries, and the head entry is
touched only once they could not satisfy the requested amount.  Returns
the surviving chunks and the amount moved back to `active`. -/
def rebondChunks : List UnlockChunk → Nat → List UnlockChunk × Nat
  | [], _ => ([], 0)
  | c :: rest, x =>
      let p := rebondChunks rest x
      if p.2 = x then (c :: p.1, p.2)
      else if c.value ≤ x - p.2 then (p.1, p.2 + c.value)
      else (⟨c.value - (x - p.2), c.era⟩ :: p.1, p.2 + (x - p.2))

/-- Modelled from the spec: `rebond` moves value from unlocking back into
`active`, consuming the most recently added unlocking entries first. -/
def rebond (L : StakingLedger) (amount : Nat) : StakingLedger :=
  let p := rebondChunks L.unlocking amount
  { L with active := L.active + p.2, unlocking := p.1 }

/-- Modelled from the spec: the shortfall of a slash is drawn from the
unlocking entries oldest-target-era first (the list head first), entries
consumed fully then partially, until the amount is exhausted or the
chunks are empty.  Returns the surviving chunks and the amount taken. -/
def slashChunks : List UnlockChunk → Nat → List UnlockChunk × Nat
  | [], _ => ([], 0)
  | c :: rest, x =>
      if x = 0 then (c :: rest, 0)
      else if c.value ≤ x then
        let p := slashChunks rest (x - c.value)
        (p.1, c.value + p.2)
      else (⟨c.value - x, c.era⟩ :: rest, x)

/-- Modelled from the spec: `do_slash` on a ledger reduces `active` by
`min(amount, active)`, draws the shortfall from the unlocking entries
oldest first, and reduces `total` by the amount actually removed.
Returns the new ledger and the amount removed. -/
def doSlash (L : StakingLedger) (amount : Nat) : StakingLedger × Nat :=
  let fromActive := min amount L.active
  let p := slashChunks L.unlocking (amount - fromActive)
  ({ L with
      active := L.active - fromActive,
      total := L.total - (fromActive + p.2),
      unlocking := p.1 },
   fromActive + p.2)

/-- Modelled from the spec: `do_slash` with its two accumulators.  The
amount actually removed is added to the slashed-imbalance accumulator;
the reward-payout accumulator is not touched by the removal itself. -/
def doSlashCall (L : StakingLedger) (amount rewardAcc slashAcc : Nat) :
    StakingLedger × Nat × Nat :=
  let p := doSlash L amount
  (p.1, rewardAcc, slashAcc + p.2)

/-- The ledger stored by `create_stash_controller` (benchmarking.rs lines
41-49): a bond of `minimum_balance * 10` with stash id `0`. -/
def stashControllerLedger : StakingLedger := bond 0 bondAmount

/-- The fixture ledger of the `rebond` and `do_slash` benchmarks
(benchmarking.rs lines 322-334 and 368-388): `l` unlocking chunks of
value `1` and era `0` are pushed onto the stored ledger without
adjusting `total`. -/
def benchmarkChunkedLedger (l : Nat) : StakingLedger :=
  { stashControllerLedger with
    unlocking := stashControllerLedger.unlocking ++ List.replicate l ⟨1, 0⟩ }

/-- Modelled from the spec: the target validation of `nominate`:
`EmptyTargets` for an empty list, `TooManyTargets` above
`MAX_NOMINATIONS`, `DuplicateTarget` when the targets are not distinct;
otherwise the targets are accepted. -/
def nominateTargetsCheck (targets : List Nat) : Except StakingError (List Nat) :=
  if targets.isEmpty then .error .EmptyTargets
  else if MAX_NOMINATIONS < targets.length then .error .TooManyTargets
  else if targets.Nodup then .ok targets
  else .error .DuplicateTarget

/-- The nominate step of `create_nominator_with_validators`
(benchmarking.rs lines 152-203): the nominator nominates the list of the
`v` validator lookups built by the loop, which is empty when `v = 0`. -/
def createNominatorWithValidatorsNominate (v : Nat) :
    Except StakingError (List Nat) :=
  nominateTargetsCheck (List.range v)

/-- The per-nominator target-selection loop of
`create_validators_with_nominators_for_era` (benchmarking.rs lines
86-92): each of the `k` draws takes the RNG output modulo the length of
the remaining candidate list, removes the candidate at that index and
collects it.  `stream n` is the `n`-th RNG output and `ctr` the position
reached in the stream; `none` models the panic the Rust code would hit
on an empty candidate list (modulo by zero). -/
def selectTargets (stream : Nat → Nat) : Nat → List Nat → Nat →
    Option (List Nat × Nat)
  | ctr, _, 0 => some ([], ctr)
  | ctr, avail, k + 1 =>
      if avail.length = 0 then none
      else
        let idx := stream ctr % avail.length
        match selectTargets stream (ctr + 1) (avail.eraseIdx idx) k with
        | none => none
        | some (sel, ctr2) => some (avail.getD idx 0 :: sel, ctr2)

/-- The nominator-creation loop of
`create_validators_with_nominators_for_era` (benchmarking.rs lines
82-94): each of the `n` nominators selects `min v MAX_NOMINATIONS`
targets from a fresh copy of the validator list, threading the RNG
stream position, and nominates them; `none` models a panic of the
selection loop or an error of the nominate call. -/
def createNominatorTargets (stream : Nat → Nat) (v : Nat)
    (validators : List Nat) : Nat → Nat → Option (List (List Nat) × Nat)
  | ctr, 0 => some ([], ctr)
  | ctr, n + 1 =>
      match selectTargets stream ctr validators (min v MAX_NOMINATIONS) with
      | none => none
      | some (sel, ctr2) =>
          match nominateTargetsCheck sel with
          | .error _ => none
          | .ok _ =>
              match createNominatorTargets stream v validators ctr2 n with
              | none => none
              | some (ts, ctr3) => some (sel :: ts, ctr3)

/-- The fixed seed of the benchmark fixtures (benchmarking.rs line 32). -/
def SEED : Nat := 0

/-- Modelled from the spec: a stand-in for `blake2_256` on the encoded
seed; the hash itself is out of scope — only that it is a fixed function
of its input matters for the claims. -/
def blake2Model (x : Nat) : Nat := x + 2654435769

/-- Modelled from the spec: a stand-in for the ChaChaRng word stream
produced from a seed; the cipher itself is out of scope — only that the
stream is a fixed function of the seed matters for the claims. -/
def rngStreamOfSeed (seed : Nat) : Nat → Nat :=
  fun i => (seed + (i + 1) * 1103515245 + 12345) % 4294967296

/-- The RNG stream used by the fixture generator:
`ChaChaRng::from_seed(SEED.using_encoded(blake2_256))`
(benchmarking.rs line 68). -/
def benchStream : Nat → Nat := rngStreamOfSeed (blake2Model SEED)

/-- The staking state produced by the fixture generator: the registered
validator stashes, each nominator's selected targets, and the stored
validator-count configuration. -/
structure FixtureState where
  validators : List Nat
  nominatorTargets : List (List Nat)
  validatorCount : Nat
  minimumValidatorCount : Nat
deriving DecidableEq, Repr

/-- The fixture generator `create_validators_with_nominators_for_era`
(benchmarking.rs lines 66-99): registers `v` validators (modelled by
their indices), has each of `n` nominators select targets through the
seeded RNG, and sets `ValidatorCount` to `v`.  The `ambient` argument
models the ambient entropy available to the harness at run time; the
generator never reads it, since its RNG is seeded from the constant
`SEED`. -/
def createValidatorsWithNominatorsForEra (ambient : Nat → Nat) (v n : Nat) :
    Option FixtureState :=
  let validators := List.range v
  match createNominatorTargets benchStream v validators 0 n with
  | none => none
  | some (ts, _) => some ⟨validators, ts, v, 0⟩

/-- Insertion of a candidate into a stake-descending ordered list. -/
def insertByStake (stakeOf : Nat → Nat) (a : Nat) : List Nat → List Nat
  | [] => [a]
  | b :: rest =>
      if stakeOf b ≤ stakeOf a then a :: b :: rest
      else b :: insertByStake stakeOf a rest

/-- Sorting of the candidates by stake, descending. -/
def sortByStakeDesc (stakeOf : Nat → Nat) : List Nat → List Nat
  | [] => []
  | a :: rest => insertByStake stakeOf a (sortByStakeDesc stakeOf rest)

/-- Modelled from the spec (§4.4): the election invoked by `new_era`
fails with `NotEnoughValidators` when fewer candidates exist than the
minimum validator count, and otherwise elects the top `ValidatorCount`
candidates by stake, descending. -/
def newEra (st : FixtureState) (stakeOf : Nat → Nat) :
    Except StakingError (List Nat) :=
  if st.validators.length < st.minimumValidatorCount then
    .error .NotEnoughValidators
  else
    .ok ((sortByStakeDesc stakeOf st.validators).take st.validatorCount)

/-- The setup of the `new_era` benchmark (benchmarking.rs lines
357-366): `MinimumValidatorCount` is set to `0` and the fixture
generator is run. -/
def newEraBenchSetup (ambient : Nat → Nat) (v n : Nat) : Option FixtureState :=
  match createValidatorsWithNominatorsForEra ambient v n with
  | none => none
  | some st => some { st with minimumValidatorCount := 0 }

/-- A pending deferred slash record, as stored in an era's
`UnappliedSlashes` list (defaulted fields in the benchmark fixture). -/
structure UnappliedSlash where
  validator : Nat
  ownSlash : Nat
  payout : Nat
deriving DecidableEq, Repr, Inhabited

/-- Strict sortedness, hence uniqueness, of an index list, as validated
by `cancel_deferred_slash`. -/
def sortedUnique : List Nat → Bool
  | [] => true
  | [_] => true
  | a :: b :: rest => decide (a < b) && sortedUnique (b :: rest)

/-- Removal of the entries of a list sitting at the listed positions,
`pos` being the position of the list head. -/
def removeIndicesFrom (idxs : List Nat) : Nat → List UnappliedSlash → List UnappliedSlash
  | _, [] => []
  | pos, a :: rest =>
      if idxs.contains pos then removeIndicesFrom idxs (pos + 1) rest
      else a :: removeIndicesFrom idxs (pos + 1) rest

/-- Removal of the entries at the given indices of a pending-slash list. -/
def removeIndices (l : List UnappliedSlash) (idxs : List Nat) : List UnappliedSlash :=
  removeIndicesFrom idxs 0 l

/-- Modelled from the spec: `cancel_deferred_slash` is root-only, fails
with `ErrorsAlreadyApplied` once the era is outside the deferral window,
validates the indices as sorted and unique (`NotSortedAndUnique`) and in
range, and removes exactly the pending entries at those indices. -/
def cancelDeferredSlash (isRoot withinWindow : Bool)
    (pending : List UnappliedSlash) (indices : List Nat) :
    Except StakingError (List UnappliedSlash) :=
  if ¬ isRoot then .error .BadOrigin
  else if ¬ withinWindow then .error .ErrorsAlreadyApplied
  else if ¬ sortedUnique indices then .error .NotSortedAndUnique
  else if indices.any (fun i => pending.length ≤ i) then .error .InvalidSlashIndex
  else .ok (removeIndices pending indices)

/-- The stored pending list after a `cancel_deferred_slash` call: on any
failure the list is left unchanged (atomic rollback). -/
def cancelDeferredSlashRun (isRoot withinWindow : Bool)
    (pending : List UnappliedSlash) (indices : List Nat) : List UnappliedSlash :=
  match cancelDeferredSlash isRoot withinWindow pending indices with
  | .ok l => l
  | .error _ => pending

/-- Modelled from the spec (§4.5): the reward state read by
`payout_validator`: current era and history depth, stash balances, the
claimed (era, validator) pairs, the per-era payout pool
(`ErasValidatorReward`), reward points, commission (parts per billion)
and the clipped exposure of each validator. -/
structure PayoutState where
  currentEra : Nat
  historyDepth : Nat
  balances : Nat → Nat
  claimed : List (Nat × Nat)
  eraPayout : Nat → Option Nat
  pointsTotal : Nat → Nat
  pointsOf : Nat → Nat → Nat
  commissionPpb : Nat → Nat
  exposureOwn : Nat → Nat → Nat
  exposureTotal : Nat → Nat → Nat

/-- Parts-per-billion denominator of commission fractions. -/
def billion : Nat := 1000000000

/-- Modelled from the spec: the validator's share of the era payout,
`era_total_payout * validator_points / era_total_points`. -/
def validatorShare (st : PayoutState) (era v : Nat) : Nat :=
  match st.eraPayout era with
  | none => 0
  | some pool => pool * st.pointsOf era v / st.pointsTotal era

/-- Modelled from the spec: the part of the share credited to the
validator's stash: the commission cut plus the own-stake proportional
cut of the remainder. -/
def validatorCredit (st : PayoutState) (era v : Nat) : Nat :=
  let share := validatorShare st era v
  let commissionCut := share * st.commissionPpb v / billion
  commissionCut + (share - commissionCut) * st.exposureOwn era v / st.exposureTotal era v

/-- Modelled from the spec: the successful effect of `payout_validator`:
the validator's stash is credited and the (era, validator) pair is
marked claimed. -/
def payoutApply (st : PayoutState) (v era : Nat) : PayoutState :=
  { st with
    balances := fun a =>
      if a = v then st.balances a + validatorCredit st era v else st.balances a,
    claimed := (era, v) :: st.claimed }

/-- Modelled from the spec: `payout_validator` requires the era to be
within retained history and to have reward points recorded for the
validator (`InvalidEraToReward` otherwise) and the (era, validator) pair
not yet claimed (`AlreadyClaimed` otherwise); on success it credits the
validator's stash and marks the pair claimed. -/
def payoutValidator (st : PayoutState) (v era : Nat) :
    Except StakingError PayoutState :=
  if st.eraPayout era = none ∨ st.pointsOf era v = 0 then .error .InvalidEraToReward
  else if ¬ (st.currentEra ≤ era + st.historyDepth) then .error .InvalidEraToReward
  else if (era, v) ∈ st.claimed then .error .AlreadyClaimed
  else .ok (payoutApply st v era)

/-- The persisted state after a `payout_validator` call: on failure the
state is left unchanged (atomic rollback). -/
def payoutValidatorRun (st : PayoutState) (v era : Nat) : PayoutState :=
  match payoutValidator st v era with
  | .ok st2 => st2
  | .error _ => st

/-- The `withdraw_unbonded` benchmark fixture (benchmarking.rs lines
232-241): a stash-controller pair is bonded, the full bonded amount is
unbonded at era `0`, and the era-advancing lines are commented out, so
the call runs at era `0`. -/
def withdrawBenchLedger : StakingLedger :=
  unbond stashControllerLedger bondAmount 0 BondingDuration

@[simp] theorem sumUnlocking_nil : sumUnlocking [] = 0 := rfl

@[simp] theorem sumUnlocking_cons (c : UnlockChunk) (l : List UnlockChunk) :
    sumUnlocking (c :: l) = c.value + sumUnlocking l := by
  simp [sumUnlocking]

@[simp] theorem sumUnlocking_append (l l' : List UnlockChunk) :
    sumUnlocking (l ++ l') = sumUnlocking l + sumUnlocking l' := by
  simp [sumUnlocking]

theorem sumUnlocking_filter_split (l : List UnlockChunk) (cur : Nat) :
    sumUnlocking (l.filter fun c => decide (c.era ≤ cur)) +
      sumUnlocking (l.filter fun c => decide (cur < c.era)) = sumUnlocking l := by
  induction l with
  | nil => simp
  | cons c rest ih =>
      by_cases h : c.era ≤ cur
      · have h2 : ¬ cur < c.era := by omega
        simp [List.filter_cons, h, h2]
        omega
      · have h2 : cur < c.era := by omega
        simp [List.filter_cons, h, h2]
        omega

theorem rebondChunks_spec : ∀ (l : List UnlockChunk) (x : Nat),
    (rebondChunks l x).2 = min x (sumUnlocking l) ∧
    sumUnlocking (rebondChunks l x).1 = sumUnlocking l - (rebondChunks l x).2 ∧
    ((rebondChunks l x).2 ≠ x → (rebondChunks l x).1 = [])
  | [], x => by simp [rebondChunks]
  | c :: rest, x => by
      obtain ⟨h1, h2, h3⟩ := rebondChunks_spec rest x
      rcases hp : rebondChunks rest x with ⟨a, m⟩
      rw [hp] at h1 h2 h3
      dsimp only at h1 h2 h3
      simp only [rebondChunks, hp]
      split
      · next heq =>
          refine ⟨by dsimp only; simp only [sumUnlocking_cons]; omega,
            by dsimp only; simp only [sumUnlocking_cons]; omega, ?_⟩
          intro hne
          exact absurd heq hne
      · split
        · next hne hc =>
            exact ⟨by dsimp only; simp only [sumUnlocking_cons]; omega,
              by dsimp only; simp only [sumUnlocking_cons]; omega,
              fun _ => h3 hne⟩
        · next hne hc =>
            refine ⟨by dsimp only; simp only [sumUnlocking_cons]; omega,
              by dsimp only; simp only [sumUnlocking_cons]; omega, ?_⟩
            intro hne2
            dsimp only at hne2
            exact absurd (by omega) hne2

theorem rebondChunks_era_take : ∀ (l : List UnlockChunk) (x : Nat),
    ∃ k, ((rebondChunks l x).1.map fun c => c.era) =
      ((l.map fun c => c.era).take k)
  | [], x => ⟨0, by simp [rebondChunks]⟩
  | c :: rest, x => by
      obtain ⟨h1, h2, h3⟩ := rebondChunks_spec rest x
      obtain ⟨k, hk⟩ := rebondChunks_era_take rest x
      rcases hp : rebondChunks rest x with ⟨a, m⟩
      rw [hp] at h1 h2 h3 hk
      dsimp only at h1 h2 h3 hk
      simp only [rebondChunks, hp]
      split
      · exact ⟨k + 1, by simp only [List.map_cons, List.take_succ_cons]; rw [hk]⟩
      · split
        · next hne hc =>
            refine ⟨0, ?_⟩
            rw [h3 hne]
            simp
        · next hne hc =>
            refine ⟨1, ?_⟩
            rw [h3 hne]
            simp

theorem slashChunks_spec : ∀ (l : List UnlockChunk) (x : Nat),
    (slashChunks l x).2 = min x (sumUnlocking l) ∧
    sumUnlocking (slashChunks l x).1 = sumUnlocking l - (slashChunks l x).2 ∧
    (∃ k, ((slashChunks l x).1.map fun c => c.era) =
      ((l.map fun c => c.era).drop k))
  | [], x => by simp [slashChunks]
  | c :: rest, x => by
      simp only [slashChunks]
      split
      · next h0 =>
          subst h0
          exact ⟨by simp, by simp, ⟨0, rfl⟩⟩
      · split
        · next h0 hc =>
            obtain ⟨h1, h2, k, h4⟩ := slashChunks_spec rest (x - c.value)
            rcases hp : slashChunks rest (x - c.value) with ⟨a, t⟩
            rw [hp] at h1 h2 h4
            dsimp only at h1 h2 h4
            simp only [hp]
            refine ⟨by simp only [sumUnlocking_cons]; omega,
              by simp only [sumUnlocking_cons]; omega, ⟨k + 1, ?_⟩⟩
            simpa using h4
        · next h0 hc =>
            exact ⟨by simp only [sumUnlocking_cons]; omega,
              by simp only [sumUnlocking_cons]; omega, ⟨0, by simp⟩⟩

theorem wf_bond (s a : Nat) : wfLedger (bond s a) := by
  constructor <;> simp [bond, wfLedger]

theorem wf_bondExtra (L : StakingLedger) (x : Nat) (h : wfLedger L) :
    wfLedger (bondExtra L x) := by
  obtain ⟨h1, h2⟩ := h
  unfold wfLedger bondExtra
  constructor <;> simp <;> omega

theorem wf_unbond (L : StakingLedger) (x cur dur : Nat) (h : wfLedger L) :
    wfLedger (unbond L x cur dur) := by
  obtain ⟨h1, h2⟩ := h
  simp only [unbond, wfLedger]
  rcases List.eq_nil_or_concat L.unlocking with hnil | ⟨l', a, hl⟩
  · rw [hnil] at h2 ⊢
    simp only [List.getLast?_nil, sumUnlocking_nil, sumUnlocking_cons] at h2 ⊢
    constructor <;> omega
  · rw [List.concat_eq_append] at hl
    rw [hl] at h2 ⊢
    rw [List.getLast?_concat]
    simp only [sumUnlocking_append, sumUnlocking_cons, sumUnlocking_nil] at h2 ⊢
    split
    · rw [List.dropLast_concat]
      simp only [sumUnlocking_append, sumUnlocking_cons, sumUnlocking_nil]
      constructor <;> omega
    · simp only [List.append_assoc, List.cons_append, List.nil_append,
        sumUnlocking_append, sumUnlocking_cons, sumUnlocking_nil]
      constructor <;> omega

theorem wf_withdrawUnbonded (L : StakingLedger) (cur : Nat) (h : wfLedger L) :
    wfLedger (withdrawUnbonded L cur) := by
  obtain ⟨h1, h2⟩ := h
  have hs := sumUnlocking_filter_split L.unlocking cur
  unfold wfLedger withdrawUnbonded
  constructor <;> simp only [] <;> omega

theorem wf_rebond (L : StakingLedger) (x : Nat) (h : wfLedger L) :
    wfLedger (rebond L x) := by
  obtain ⟨h1, h2⟩ := h
  obtain ⟨r1, r2, -⟩ := rebondChunks_spec L.unlocking x
  unfold wfLedger rebond
  constructor <;> simp only [] <;> omega

theorem wf_doSlash (L : StakingLedger) (x : Nat) (h : wfLedger L) :
    wfLedger (doSlash L x).1 := by
  obtain ⟨h1, h2⟩ := h
  obtain ⟨r1, r2, -⟩ := slashChunks_spec L.unlocking (x - min x L.active)
  unfold wfLedger doSlash
  constructor <;> simp only [] <;> omega

theorem sumUnlocking_replicate (n : Nat) (c : UnlockChunk) :
    sumUnlocking (List.replicate n c) = n * c.value := by
  induction n with
  | zero => simp
  | succ k ih =>
      rw [List.replicate_succ, sumUnlocking_cons, ih]
      ring

theorem benchmark_ledger_not_wf (l : Nat) (hl : 1 ≤ l) :
    ¬ wfLedger (benchmarkChunkedLedger l) := by
  intro h
  obtain ⟨-, h2⟩ := h
  have hs : sumUnlocking (List.replicate l (⟨1, 0⟩ : UnlockChunk)) = l := by
    simpa using sumUnlocking_replicate l ⟨1, 0⟩
  simp only [benchmarkChunkedLedger, stashControllerLedger, bond, bondAmount,
    minimumBalance, List.nil_append, hs] at h2
  omega

/-- C1 (corrected): after each of the ledger-mutating operations `bond`,
`bond_extra`, `unbond`, `rebond`, `withdraw_unbonded` and `do_slash`
applied to a well-formed ledger, `active ≤ total` and
`total = active + Σ unlocking.value` hold.  The claim's final part fails:
the ledgers on which the `rebond` and `do_slash` benchmarks operate
violate the invariant for every chunk count `l ≥ 1`, since their
fixtures append `l` unit-value unlocking chunks to the stored ledger
without adjusting `total`. -/
theorem c1_ledger_invariant :
    (∀ s a, wfLedger (bond s a)) ∧
    (∀ L x, wfLedger L → wfLedger (bondExtra L x)) ∧
    (∀ L x cur dur, wfLedger L → wfLedger (unbond L x cur dur)) ∧
    (∀ L x, wfLedger L → wfLedger (rebond L x)) ∧
    (∀ L cur, wfLedger L → wfLedger (withdrawUnbonded L cur)) ∧
    (∀ L x, wfLedger L → wfLedger (doSlash L x).1) ∧
    (∀ l, 1 ≤ l → ¬ wfLedger (benchmarkChunkedLedger l)) :=
  ⟨wf_bond, wf_bondExtra, wf_unbond, wf_rebond, wf_withdrawUnbonded, wf_doSlash,
    benchmark_ledger_not_wf⟩

/-- C1 counterexample: the fixture ledger of the `rebond` benchmark at
`l = 1` violates the invariant after the benchmarked `rebond (l + 100)`
call, and the fixture ledger of the `do_slash` benchmark violates it
after the benchmarked slash of `minimum_balance * 10`. -/
theorem c1_counterexample :
    ¬ wfLedger (rebond (benchmarkChunkedLedger 1) (1 + 100)) ∧
    ¬ wfLedger ((doSlash (benchmarkChunkedLedger 1) (minimumBalance * 10)).1) := by
  constructor <;> decide

/-- C1 witness: the invariant theorem applied to a concrete bonded
ledger and a concrete unbond. -/
theorem c1_witness : wfLedger (unbond (bond 0 10) 4 0 3) :=
  c1_ledger_invariant.2.2.1 (bond 0 10) 4 0 3 (by decide)

/-- C6: `do_slash` reduces `active` by `min(amount, active)`, removes in
all `min(amount, total)`, draws the shortfall from the unlocking entries
oldest-target-era first (the surviving target eras are a suffix of the
original ones), and adds exactly the amount actually removed to the
slashed-imbalance accumulator; concretely, on a ledger with
`active = 50` and one unlocking entry of value `30`, `do_slash(60)`
yields `active = 0`, the entry reduced to `20`, and the accumulator
increased by exactly `60`. -/
theorem c6_do_slash (L : StakingLedger) (x rewardAcc slashAcc : Nat)
    (h : wfLedger L) :
    (doSlashCall L x rewardAcc slashAcc).1.active = L.active - min x L.active ∧
    L.total - (doSlashCall L x rewardAcc slashAcc).1.total = min x L.total ∧
    (doSlashCall L x rewardAcc slashAcc).2.2 =
      slashAcc + (L.total - (doSlashCall L x rewardAcc slashAcc).1.total) ∧
    (∃ k, ((doSlashCall L x rewardAcc slashAcc).1.unlocking.map fun c => c.era) =
      ((L.unlocking.map fun c => c.era).drop k)) ∧
    doSlashCall ⟨0, 80, 50, [⟨30, 0⟩]⟩ 60 0 0 = (⟨0, 20, 0, [⟨20, 0⟩]⟩, 0, 60) := by
  obtain ⟨h1, h2⟩ := h
  obtain ⟨s1, s2, k, s3⟩ := slashChunks_spec L.unlocking (x - min x L.active)
  rcases hs : slashChunks L.unlocking (x - min x L.active) with ⟨a, t⟩
  rw [hs] at s1 s2 s3
  dsimp only at s1 s2 s3
  refine ⟨?_, ?_, ?_, ⟨k, ?_⟩, by decide⟩ <;>
    simp only [doSlashCall, doSlash, hs]
  · omega
  · omega
  · exact s3

/-- C6 witness: the `do_slash` theorem applied to the Scenario C ledger. -/
theorem c6_witness :
    (doSlashCall ⟨0, 80, 50, [⟨30, 0⟩]⟩ 60 0 0).1.active = 50 - min 60 50 ∧
    80 - (doSlashCall ⟨0, 80, 50, [⟨30, 0⟩]⟩ 60 0 0).1.total = min 60 80 ∧
    (doSlashCall ⟨0, 80, 50, [⟨30, 0⟩]⟩ 60 0 0).2.2 =
      0 + (80 - (doSlashCall ⟨0, 80, 50, [⟨30, 0⟩]⟩ 60 0 0).1.total) ∧
    (∃ k, ((doSlashCall ⟨0, 80, 50, [⟨30, 0⟩]⟩ 60 0 0).1.unlocking.map fun c => c.era) =
      ((([⟨30, 0⟩] : List UnlockChunk).map fun c => c.era).drop k)) ∧
    doSlashCall ⟨0, 80, 50, [⟨30, 0⟩]⟩ 60 0 0 = (⟨0, 20, 0, [⟨20, 0⟩]⟩, 0, 60) :=
  c6_do_slash ⟨0, 80, 50, [⟨30, 0⟩]⟩ 60 0 0 (by decide)

/-- C4: `withdraw_unbonded` is a no-op when every unlocking entry
targets an era strictly greater than the current one; in general it
keeps exactly the entries targeting later eras and reduces `total` by
the removed values (so, on a well-formed ledger, down to
`active + Σ remaining`); when the resulting `total` is `0` the account
is fully purged (stash reaped, preferences cleared); and the
`withdraw_unbonded` benchmark fixture, whose era-advancing lines are
commented out, exercises the no-op branch. -/
theorem c4_withdraw_unbonded (L : StakingLedger) (cur : Nat) (st : AccountState) :
    ((∀ c ∈ L.unlocking, cur < c.era) → withdrawUnbonded L cur = L) ∧
    (∀ c, c ∈ (withdrawUnbonded L cur).unlocking ↔ (c ∈ L.unlocking ∧ cur < c.era)) ∧
    ((withdrawUnbonded L cur).total =
      L.total - sumUnlocking (L.unlocking.filter fun c => decide (c.era ≤ cur))) ∧
    (wfLedger L → (withdrawUnbonded L cur).total =
      L.active + sumUnlocking (withdrawUnbonded L cur).unlocking) ∧
    (st.ledger = some L → (withdrawUnbonded L cur).total = 0 →
      withdrawUnbondedCall st cur = .ok ⟨none, false, none⟩) ∧
    withdrawUnbonded withdrawBenchLedger 0 = withdrawBenchLedger := by
  refine ⟨?_, ?_, rfl, ?_, ?_, by decide⟩
  · intro hall
    unfold withdrawUnbonded
    have hk : L.unlocking.filter (fun c => decide (cur < c.era)) = L.unlocking := by
      rw [List.filter_eq_self]
      intro a ha
      simpa using hall a ha
    have hr : L.unlocking.filter (fun c => decide (c.era ≤ cur)) = [] := by
      rw [List.filter_eq_nil_iff]
      intro a ha
      have := hall a ha
      simpa using (by omega : ¬ a.era ≤ cur)
    rw [hk, hr]
    simp
  · intro c
    simp [withdrawUnbonded, List.mem_filter]
  · intro hwf
    obtain ⟨h1, h2⟩ := hwf
    have hs := sumUnlocking_filter_split L.unlocking cur
    unfold withdrawUnbonded
    dsimp only
    omega
  · intro hled h0
    unfold withdrawUnbondedCall
    rw [hled]
    simp only [h0, if_pos]

/-- C4 witness: the no-op branch at the benchmark fixture and the
reaping branch at a fully-unbonded ledger withdrawn at its target era. -/
theorem c4_witness :
    withdrawUnbonded withdrawBenchLedger 0 = withdrawBenchLedger ∧
    withdrawUnbondedCall ⟨some (unbond (bond 0 10) 10 0 0), true, none⟩ 0 =
      .ok ⟨none, false, none⟩ :=
  ⟨(c4_withdraw_unbonded withdrawBenchLedger 0 ⟨none, false, none⟩).1 (by decide),
   (c4_withdraw_unbonded (unbond (bond 0 10) 10 0 0) 0
      ⟨some (unbond (bond 0 10) 10 0 0), true, none⟩).2.2.2.2.1 rfl (by decide)⟩

/-- C3: `nominate` target validation fails with `EmptyTargets` on an
empty list, `TooManyTargets` above `MAX_NOMINATIONS`, `DuplicateTarget`
on non-distinct targets, succeeds on exactly `MAX_NOMINATIONS` distinct
targets; and the `create_nominator_with_validators(0)` fixture of the
`payout_nominator` benchmark nominates an empty list, so its setup
fails. -/
theorem c3_nominate_errors :
    nominateTargetsCheck [] = .error .EmptyTargets ∧
    (∀ targets : List Nat, MAX_NOMINATIONS < targets.length →
      nominateTargetsCheck targets = .error .TooManyTargets) ∧
    (∀ targets : List Nat, targets ≠ [] → targets.length ≤ MAX_NOMINATIONS →
      ¬ targets.Nodup → nominateTargetsCheck targets = .error .DuplicateTarget) ∧
    (∀ targets : List Nat, targets.length = MAX_NOMINATIONS → targets.Nodup →
      nominateTargetsCheck targets = .ok targets) ∧
    createNominatorWithValidatorsNominate 0 = .error .EmptyTargets := by
  refine ⟨rfl, ?_, ?_, ?_, rfl⟩
  · intro t ht
    cases t with
    | nil => simp [MAX_NOMINATIONS] at ht
    | cons a l =>
        unfold nominateTargetsCheck
        rw [if_neg (by simp), if_pos ht]
  · intro t hne hlen hnd
    cases t with
    | nil => exact absurd rfl hne
    | cons a l =>
        unfold nominateTargetsCheck
        rw [if_neg (by simp), if_neg (by omega), if_neg hnd]
  · intro t hlen hnd
    cases t with
    | nil => simp [MAX_NOMINATIONS] at hlen
    | cons a l =>
        unfold nominateTargetsCheck
        rw [if_neg (by simp), if_neg (by omega), if_pos hnd]

/-- C3 witness: the validation theorem applied at lists of length
`MAX_NOMINATIONS + 1`, a duplicated pair, and `MAX_NOMINATIONS` distinct
targets. -/
theorem c3_witness :
    nominateTargetsCheck (List.range 17) = .error .TooManyTargets ∧
    nominateTargetsCheck [5, 5] = .error .DuplicateTarget ∧
    nominateTargetsCheck (List.range 16) = .ok (List.range 16) :=
  ⟨c3_nominate_errors.2.1 (List.range 17) (by decide),
   c3_nominate_errors.2.2.1 [5, 5] (by decide) (by decide) (by decide),
   c3_nominate_errors.2.2.2.1 (List.range 16) (by decide) (by decide)⟩

theorem ledgerEq (L L' : StakingLedger) (h1 : L.stash = L'.stash)
    (h2 : L.total = L'.total) (h3 : L.active = L'.active)
    (h4 : L.unlocking = L'.unlocking) : L = L' := by
  cases L
  cases L'
  simp_all

theorem rebondChunks_concat_keep (l : List UnlockChunk) (d : UnlockChunk)
    (x : Nat) (hx : 0 < x) (hlt : x < d.value) :
    rebondChunks (l ++ [d]) x = (l ++ [⟨d.value - x, d.era⟩], x) := by
  induction l with
  | nil =>
      simp only [List.nil_append, rebondChunks]
      rw [if_neg (by omega), if_neg (by omega)]
      simp
  | cons a l ih =>
      simp [rebondChunks, ih]

theorem rebondChunks_concat_consume (l : List UnlockChunk) (d : UnlockChunk)
    (x : Nat) (hx : 0 < x) (heq : d.value = x) :
    rebondChunks (l ++ [d]) x = (l, x) := by
  induction l with
  | nil =>
      simp only [List.nil_append, rebondChunks]
      rw [if_neg (by omega), if_pos (by omega)]
      simp [heq]
  | cons a l ih =>
      simp [rebondChunks, ih]

theorem unbond_rebond_restore (L : StakingLedger) (x cur dur : Nat)
    (hpos : ∀ c ∈ L.unlocking, 0 < c.value) (hx0 : 0 < x)
    (hxa : x ≤ L.active) :
    rebond (unbond L x cur dur) x = L := by
  have hv : min x L.active = x := min_eq_left hxa
  rcases List.eq_nil_or_concat L.unlocking with hnil | ⟨l', d, hl⟩
  · have hr := rebondChunks_concat_consume [] ⟨x, cur + dur⟩ x hx0 rfl
    simp only [List.nil_append] at hr
    simp only [rebond, unbond, hnil, List.getLast?_nil, hv, hr]
    exact ledgerEq _ _ rfl rfl (by dsimp only; omega) (by dsimp only; rw [hnil])
  · rw [List.concat_eq_append] at hl
    obtain ⟨dv, de⟩ := d
    by_cases he : de = cur + dur
    · have hdpos : 0 < dv := by
        have := hpos ⟨dv, de⟩ (by rw [hl]; simp)
        simpa using this
      have hr := rebondChunks_concat_keep l' ⟨dv + x, cur + dur⟩ x hx0
        (by show x < dv + x; omega)
      have hche : (⟨dv, de⟩ : UnlockChunk).era = cur + dur := he
      simp only [rebond, unbond, hl, List.getLast?_concat, if_pos hche, hv,
        List.dropLast_concat, hr]
      refine ledgerEq _ _ rfl rfl (by dsimp only; omega) ?_
      dsimp only
      rw [hl]
      have hcv : (⟨dv + x - x, cur + dur⟩ : UnlockChunk) = ⟨dv, de⟩ := by
        rw [he]
        congr 1
        omega
      rw [hcv]
    · have hr := rebondChunks_concat_consume (l' ++ [⟨dv, de⟩]) ⟨x, cur + dur⟩
        x hx0 rfl
      have hche : ¬ (⟨dv, de⟩ : UnlockChunk).era = cur + dur := he
      simp only [rebond, unbond, hl, List.getLast?_concat, if_neg hche, hv, hr]
      exact ledgerEq _ _ rfl rfl (by dsimp only; omega) (by dsimp only; rw [hl])

/-- C5: `unbond(x)` followed by `rebond(x)` in the same era restores the
ledger exactly (for `0 < x ≤ active` on a ledger with positive-value
unlocking entries); `rebond` consumes the most recently added unlocking
entries first, so the surviving target eras are always a prefix of the
original ones with a partially-consumed last entry keeping its
remainder; and when the requested amount exceeds the total unlocking
value every unlocking entry is consumed. -/
theorem c5_unbond_rebond (L : StakingLedger) (x cur dur : Nat)
    (hpos : ∀ c ∈ L.unlocking, 0 < c.value) (hx0 : 0 < x)
    (hxa : x ≤ L.active) :
    rebond (unbond L x cur dur) x = L ∧
    (∀ (chunks : List UnlockChunk) (y : Nat), ∃ k,
      ((rebondChunks chunks y).1.map fun c => c.era) =
        ((chunks.map fun c => c.era).take k)) ∧
    (∀ (chunks : List UnlockChunk) (y : Nat), sumUnlocking chunks < y →
      (rebondChunks chunks y).1 = [] ∧
      (rebondChunks chunks y).2 = sumUnlocking chunks) := by
  refine ⟨unbond_rebond_restore L x cur dur hpos hx0 hxa,
    rebondChunks_era_take, ?_⟩
  intro chunks y hlt
  obtain ⟨h1, h2, h3⟩ := rebondChunks_spec chunks y
  exact ⟨h3 (by omega), by omega⟩

/-- C5 witness: the round-trip theorem applied to a concrete bonded
ledger with a pending unlocking entry. -/
theorem c5_witness :
    rebond (unbond ⟨0, 30, 25, [⟨5, 2⟩]⟩ 5 0 3) 5 = ⟨0, 30, 25, [⟨5, 2⟩]⟩ ∧
    (∀ (chunks : List UnlockChunk) (y : Nat), ∃ k,
      ((rebondChunks chunks y).1.map fun c => c.era) =
        ((chunks.map fun c => c.era).take k)) ∧
    (∀ (chunks : List UnlockChunk) (y : Nat), sumUnlocking chunks < y →
      (rebondChunks chunks y).1 = [] ∧
      (rebondChunks chunks y).2 = sumUnlocking chunks) :=
  c5_unbond_rebond ⟨0, 30, 25, [⟨5, 2⟩]⟩ 5 0 3 (by decide) (by decide) (by decide)

theorem contains_range_eq (s pos : Nat) :
    (List.range s).contains pos = decide (pos < s) := by
  by_cases h : pos < s
  · simp [List.contains_iff_exists_mem_beq, h]
  · simp [h]

theorem sortedUnique_range' : ∀ (n a : Nat), sortedUnique (List.range' a n) = true
  | 0, _ => rfl
  | 1, a => by
      rw [List.range'_succ]
      rfl
  | n + 2, a => by
      have ih := sortedUnique_range' (n + 1) (a + 1)
      rw [List.range'_succ] at ih
      rw [List.range'_succ, List.range'_succ]
      simp only [sortedUnique, ih, Bool.and_true, decide_eq_true_eq]
      omega

theorem sortedUnique_range (s : Nat) : sortedUnique (List.range s) = true := by
  rw [List.range_eq_range']
  exact sortedUnique_range' s 0

theorem removeIndicesFrom_range (s : Nat) :
    ∀ (l : List UnappliedSlash) (pos : Nat),
      removeIndicesFrom (List.range s) pos l = l.drop (s - pos)
  | [], pos => by simp [removeIndicesFrom]
  | a :: rest, pos => by
      by_cases h : pos < s
      · have hd : (List.range s).contains pos = true := by
          rw [contains_range_eq]
          simpa using h
        have hs2 : s - pos = (s - (pos + 1)) + 1 := by omega
        simp only [removeIndicesFrom, hd, if_true]
        rw [removeIndicesFrom_range s rest (pos + 1), hs2, List.drop_succ_cons]
      · have hd : (List.range s).contains pos = false := by
          rw [contains_range_eq]
          simpa using h
        have hs2 : s - pos = 0 := by omega
        have hs3 : s - (pos + 1) = 0 := by omega
        simp only [removeIndicesFrom, hd, if_false]
        rw [removeIndicesFrom_range s rest (pos + 1), hs2, hs3]
        simp

theorem cancelDeferredSlash_ok (pending : List UnappliedSlash)
    (indices : List Nat) (hsu : sortedUnique indices = true)
    (hrange : ∀ i ∈ indices, i < pending.length) :
    cancelDeferredSlash true true pending indices =
      .ok (removeIndices pending indices) := by
  have hany : (indices.any fun i => pending.length ≤ i) = false := by
    simp only [List.any_eq_false, decide_eq_true_eq]
    intro x hx
    have := hrange x hx
    omega
  simp [cancelDeferredSlash, hsu, hany]

/-- C7: within the deferral window, `cancel_deferred_slash` with sorted,
duplicate-free, in-range indices removes exactly the pending entries at
those indices — in particular, with the benchmark's index list `0..s`
over a stored list of at least `s` entries, the first `s` entries; with
unsorted or duplicated indices it fails with `NotSortedAndUnique`, and
outside the deferral window it fails, the pending list being left
unchanged on every failure. -/
theorem c7_cancel_deferred_slash (pending : List UnappliedSlash)
    (indices : List Nat) (s : Nat) :
    (sortedUnique indices = true → (∀ i ∈ indices, i < pending.length) →
      cancelDeferredSlash true true pending indices =
        .ok (removeIndices pending indices)) ∧
    (s ≤ pending.length →
      cancelDeferredSlash true true pending (List.range s) =
        .ok (pending.drop s)) ∧
    (sortedUnique indices = false →
      cancelDeferredSlash true true pending indices =
        .error .NotSortedAndUnique ∧
      cancelDeferredSlashRun true true pending indices = pending) ∧
    (cancelDeferredSlash true false pending indices =
      .error .ErrorsAlreadyApplied ∧
      cancelDeferredSlashRun true false pending indices = pending) := by
  refine ⟨cancelDeferredSlash_ok pending indices, ?_, ?_, ?_⟩
  · intro hs
    rw [cancelDeferredSlash_ok pending (List.range s) (sortedUnique_range s)
      (by intro i hi; simp only [List.mem_range] at hi; omega)]
    rw [removeIndices, removeIndicesFrom_range]
    simp
  · intro hsu
    constructor <;> simp [cancelDeferredSlashRun, cancelDeferredSlash, hsu]
  · constructor <;> simp [cancelDeferredSlashRun, cancelDeferredSlash]

/-- C7 witness: the cancellation theorem applied to a concrete pending
list with the benchmark-shaped index list, an unsorted index list, and a
call outside the deferral window. -/
theorem c7_witness :
    cancelDeferredSlash true true [⟨0, 0, 0⟩, ⟨1, 0, 0⟩, ⟨2, 0, 0⟩]
      (List.range 2) = .ok ([⟨0, 0, 0⟩, ⟨1, 0, 0⟩, ⟨2, 0, 0⟩].drop 2) ∧
    cancelDeferredSlash true true [⟨0, 0, 0⟩] [1, 0] =
      .error .NotSortedAndUnique ∧
    cancelDeferredSlashRun true false [⟨0, 0, 0⟩] [0] = [⟨0, 0, 0⟩] :=
  ⟨(c7_cancel_deferred_slash [⟨0, 0, 0⟩, ⟨1, 0, 0⟩, ⟨2, 0, 0⟩] [] 2).2.1
      (by decide),
   ((c7_cancel_deferred_slash [⟨0, 0, 0⟩] [1, 0] 0).2.2.1 (by decide)).1,
   ((c7_cancel_deferred_slash [⟨0, 0, 0⟩] [0] 0).2.2.2).2⟩

theorem nominateCheck_ok_of (sel : List Nat) (hnd : sel.Nodup)
    (hlen1 : 1 ≤ sel.length) (hlen2 : sel.length ≤ MAX_NOMINATIONS) :
    nominateTargetsCheck sel = .ok sel := by
  unfold nominateTargetsCheck
  rw [if_neg ?_, if_neg (by omega), if_pos hnd]
  intro hcon
  rw [List.isEmpty_iff] at hcon
  subst hcon
  simp at hlen1

theorem selectTargets_spec (stream : Nat → Nat) :
    ∀ (k : Nat) (avail : List Nat) (ctr : Nat),
    k ≤ avail.length → avail.Nodup →
    ∃ sel ctr2, selectTargets stream ctr avail k = some (sel, ctr2) ∧
      sel.length = k ∧ sel.Nodup ∧ ∀ x ∈ sel, x ∈ avail
  | 0, avail, ctr, _, _ => ⟨[], ctr, rfl, rfl, List.nodup_nil, by simp⟩
  | k + 1, avail, ctr, hk, hnd => by
      have hlen : ¬ avail.length = 0 := by omega
      have hidx : stream ctr % avail.length < avail.length :=
        Nat.mod_lt _ (by omega)
      have hsub : (avail.eraseIdx (stream ctr % avail.length)).length =
          avail.length - 1 := List.length_eraseIdx_of_lt hidx
      have hnd2 : (avail.eraseIdx (stream ctr % avail.length)).Nodup :=
        (List.eraseIdx_sublist avail _).nodup hnd
      obtain ⟨sel, ctr2, hrec, hlen2, hnd3, hmem⟩ :=
        selectTargets_spec stream k (avail.eraseIdx (stream ctr % avail.length))
          (ctr + 1) (by omega) hnd2
      have hget : avail.getD (stream ctr % avail.length) 0 =
          avail[stream ctr % avail.length] := by
        rw [List.getD_eq_getElem?_getD, List.getElem?_eq_getElem hidx]
        rfl
      have hnotmem : avail[stream ctr % avail.length] ∉
          avail.eraseIdx (stream ctr % avail.length) := by
        rw [← hnd.erase_getElem _ hidx]
        exact hnd.not_mem_erase
      refine ⟨avail.getD (stream ctr % avail.length) 0 :: sel, ctr2, ?_, ?_, ?_, ?_⟩
      · simp only [selectTargets, if_neg hlen, hrec]
      · simp [hlen2]
      · refine List.nodup_cons.mpr ⟨?_, hnd3⟩
        rw [hget]
        intro hin
        exact hnotmem (hmem _ hin)
      · intro x hx
        rcases List.mem_cons.mp hx with hx | hx
        · subst hx
          rw [hget]
          exact List.getElem_mem hidx
        · exact (List.eraseIdx_sublist avail _).subset (hmem x hx)

/-- C10: for `v ≥ 1`, the per-nominator selection loop of
`create_validators_with_nominators_for_era` never hits an empty
candidate list (so the modulo is never by zero and every removal index
is in bounds — the run returns `some`), and it yields exactly
`min v MAX_NOMINATIONS` pairwise-distinct registered validators, so the
subsequent `nominate` call cannot fail with `DuplicateTarget` or
`TooManyTargets`. -/
theorem c10_selection_loop (stream : Nat → Nat) (ctr v : Nat) (hv : 1 ≤ v) :
    ∃ sel ctr2,
      selectTargets stream ctr (List.range v) (min v MAX_NOMINATIONS) =
        some (sel, ctr2) ∧
      sel.length = min v MAX_NOMINATIONS ∧
      sel.Nodup ∧
      (∀ x ∈ sel, x ∈ List.range v) ∧
      nominateTargetsCheck sel = .ok sel ∧
      nominateTargetsCheck sel ≠ .error .DuplicateTarget ∧
      nominateTargetsCheck sel ≠ .error .TooManyTargets := by
  obtain ⟨sel, ctr2, h1, h2, h3, h4⟩ :=
    selectTargets_spec stream (min v MAX_NOMINATIONS) (List.range v) ctr
      (by simp only [List.length_range]; omega) (List.nodup_range v)
  have hM : 1 ≤ MAX_NOMINATIONS := by decide
  have hok : nominateTargetsCheck sel = .ok sel :=
    nominateCheck_ok_of sel h3 (by omega) (by omega)
  exact ⟨sel, ctr2, h1, h2, h3, h4, hok, by simp [hok], by simp [hok]⟩

/-- C10 witness: the selection-loop theorem at the benchmark's RNG
stream, stream position `0`, and three registered validators. -/
theorem c10_witness :
    ∃ sel ctr2,
      selectTargets benchStream 0 (List.range 3) (min 3 MAX_NOMINATIONS) =
        some (sel, ctr2) ∧
      sel.length = min 3 MAX_NOMINATIONS ∧
      sel.Nodup ∧
      (∀ x ∈ sel, x ∈ List.range 3) ∧
      nominateTargetsCheck sel = .ok sel ∧
      nominateTargetsCheck sel ≠ .error .DuplicateTarget ∧
      nominateTargetsCheck sel ≠ .error .TooManyTargets :=
  c10_selection_loop benchStream 0 3 (by decide)

theorem insertByStake_length (f : Nat → Nat) (a : Nat) :
    ∀ (l : List Nat), (insertByStake f a l).length = l.length + 1
  | [] => rfl
  | b :: rest => by
      simp only [insertByStake]
      split
      · exact rfl
      · simp [insertByStake_length f a rest]

theorem sortByStakeDesc_length (f : Nat → Nat) :
    ∀ (l : List Nat), (sortByStakeDesc f l).length = l.length
  | [] => rfl
  | a :: rest => by
      simp only [sortByStakeDesc]
      rw [insertByStake_length, sortByStakeDesc_length f rest]
      exact (List.length_cons a rest).symm

theorem createNominatorTargets_some (v : Nat) (hv : 1 ≤ v) :
    ∀ (n ctr : Nat), ∃ ts ctr2,
      createNominatorTargets benchStream v (List.range v) ctr n = some (ts, ctr2)
  | 0, ctr => ⟨[], ctr, rfl⟩
  | n + 1, ctr => by
      obtain ⟨sel, ctr2, h1, h2, h3, h4⟩ :=
        selectTargets_spec benchStream (min v MAX_NOMINATIONS) (List.range v)
          ctr (by simp only [List.length_range]; omega) (List.nodup_range v)
      have hM : 1 ≤ MAX_NOMINATIONS := by decide
      have hok : nominateTargetsCheck sel = .ok sel :=
        nominateCheck_ok_of sel h3 (by omega) (by omega)
      obtain ⟨ts, ctr3, hrec⟩ := createNominatorTargets_some v hv n ctr2
      refine ⟨sel :: ts, ctr3, ?_⟩
      simp only [createNominatorTargets, h1, hok, hrec]

/-- C2: after the `new_era` benchmark setup (`MinimumValidatorCount`
zero, `v` registered validators, `n` nominators, `ValidatorCount = v`)
with `1 ≤ v ≤ 10` and `1 ≤ n ≤ 100`, the election returns a validator
set of exactly `v` validators; and the election fails with
`NotEnoughValidators` exactly when fewer candidates exist than the
minimum validator count. -/
theorem c2_new_era (ambient : Nat → Nat) (stakeOf : Nat → Nat) (v n : Nat)
    (hv1 : 1 ≤ v) (hv10 : v ≤ 10) (hn1 : 1 ≤ n) (hn100 : n ≤ 100) :
    (∃ st, newEraBenchSetup ambient v n = some st ∧
      ∃ l, newEra st stakeOf = .ok l ∧ l.length = v) ∧
    (∀ (st : FixtureState) (f : Nat → Nat),
      newEra st f = .error .NotEnoughValidators ↔
        st.validators.length < st.minimumValidatorCount) := by
  constructor
  · obtain ⟨ts, ctr2, hts⟩ := createNominatorTargets_some v hv1 n 0
    refine ⟨⟨List.range v, ts, v, 0⟩, ?_, ?_⟩
    · simp only [newEraBenchSetup, createValidatorsWithNominatorsForEra, hts]
    · have hlen : ((sortByStakeDesc stakeOf (List.range v)).take v).length = v := by
        rw [List.length_take, sortByStakeDesc_length, List.length_range]
        omega
      refine ⟨(sortByStakeDesc stakeOf (List.range v)).take v, ?_, hlen⟩
      unfold newEra
      rw [if_neg (by simp)]
  · intro st f
    unfold newEra
    constructor
    · intro h
      by_contra hlt
      rw [if_neg hlt] at h
      exact Except.noConfusion h
    · intro h
      rw [if_pos h]

/-- C2 witness: the election theorem at `v = 1`, `n = 1`, with a trivial
ambient-entropy function and stake assignment. -/
theorem c2_witness :
    (∃ st, newEraBenchSetup (fun _ => 0) 1 1 = some st ∧
      ∃ l, newEra st (fun _ => 0) = .ok l ∧ l.length = 1) ∧
    (∀ (st : FixtureState) (f : Nat → Nat),
      newEra st f = .error .NotEnoughValidators ↔
        st.validators.length < st.minimumValidatorCount) :=
  c2_new_era (fun _ => 0) (fun _ => 0) 1 1 (by decide) (by decide) (by decide)
    (by decide)

/-- C9: the fixture generator is deterministic — its RNG is seeded from
the hashed constant `SEED`, so two runs with the same `v` and `n`, under
arbitrary (and possibly different) ambient entropy, produce the same
staking state and in particular assign every nominator the same target
set. -/
theorem c9_fixture_determinism (e1 e2 : Nat → Nat) (v n : Nat) :
    createValidatorsWithNominatorsForEra e1 v n =
      createValidatorsWithNominatorsForEra e2 v n ∧
    Option.map FixtureState.nominatorTargets
        (createValidatorsWithNominatorsForEra e1 v n) =
      Option.map FixtureState.nominatorTargets
        (createValidatorsWithNominatorsForEra e2 v n) :=
  ⟨rfl, rfl⟩

/-- A concrete reward state whose era `1` has reward points recorded for
validator `0`, is unclaimed and within history, but whose recorded era
payout pool is `0`. -/
def c8State : PayoutState :=
  { currentEra := 1
    historyDepth := 84
    balances := fun _ => 100
    claimed := []
    eraPayout := fun e => if e = 1 then some 0 else none
    pointsTotal := fun _ => 10
    pointsOf := fun e w => if e = 1 ∧ w = 0 then 10 else 0
    commissionPpb := fun _ => 500000000
    exposureOwn := fun _ _ => 10
    exposureTotal := fun _ _ => 10 }

/-- The same reward state with a positive recorded era payout pool. -/
def c8OkState : PayoutState :=
  { c8State with eraPayout := fun e => if e = 1 then some 1000 else none }

/-- C8 counterexample: in `c8State` every hypothesis of the claim holds
for validator `0` and era `1` (reward points recorded, unclaimed, era
within history), yet the first `payout_validator` succeeds without
strictly increasing the stash balance, because the recorded era payout
is `0` — refuting the claim as stated. -/
theorem c8_counterexample :
    c8State.eraPayout 1 = some 0 ∧
    0 < c8State.pointsOf 1 0 ∧
    c8State.claimed = [] ∧
    c8State.currentEra ≤ 1 + c8State.historyDepth ∧
    payoutValidator c8State 0 1 = .ok (payoutApply c8State 0 1) ∧
    (payoutApply c8State 0 1).balances 0 = c8State.balances 0 :=
  ⟨rfl, by decide, rfl, by decide, rfl, rfl⟩

/-- C8 (corrected): for a validator and an era within retained history
with reward points recorded and not yet claimed, and whose computed
payout credit is positive (in particular the recorded era payout pool
must be positive), a first `payout_validator` succeeds and strictly
increases the balance credited to the validator's stash; a second call
for the same (validator, era) fails with `AlreadyClaimed`, and the
failed call leaves the persisted state unchanged. -/
theorem c8_payout_claim_once (st : PayoutState) (v era pool : Nat)
    (hpool : st.eraPayout era = some pool)
    (hpoints : 0 < st.pointsOf era v)
    (hhist : st.currentEra ≤ era + st.historyDepth)
    (hunclaimed : (era, v) ∉ st.claimed)
    (hcredit : 0 < validatorCredit st era v) :
    payoutValidator st v era = .ok (payoutApply st v era) ∧
    (payoutApply st v era).balances v =
      st.balances v + validatorCredit st era v ∧
    st.balances v < (payoutApply st v era).balances v ∧
    payoutValidator (payoutApply st v era) v era = .error .AlreadyClaimed ∧
    payoutValidatorRun (payoutApply st v era) v era = payoutApply st v era := by
  have hc1 : ¬ (st.eraPayout era = none ∨ st.pointsOf era v = 0) := by
    rw [hpool]
    rintro (h | h)
    · exact Option.noConfusion h
    · omega
  have hb : (payoutApply st v era).balances v =
      st.balances v + validatorCredit st era v := by
    simp [payoutApply]
  have herr : payoutValidator (payoutApply st v era) v era =
      .error .AlreadyClaimed := by
    unfold payoutValidator payoutApply
    dsimp only
    rw [if_neg hc1, if_neg (by omega), if_pos (List.mem_cons_self _ _)]
  refine ⟨?_, hb, by omega, herr, ?_⟩
  · unfold payoutValidator
    rw [if_neg hc1, if_neg (by omega), if_neg hunclaimed]
  · unfold payoutValidatorRun
    rw [herr]

/-- C8 witness: the corrected claim applied to the concrete reward state
with a positive era payout pool. -/
theorem c8_witness :
    payoutValidator c8OkState 0 1 = .ok (payoutApply c8OkState 0 1) ∧
    (payoutApply c8OkState 0 1).balances 0 =
      c8OkState.balances 0 + validatorCredit c8OkState 1 0 ∧
    c8OkState.balances 0 < (payoutApply c8OkState 0 1).balances 0 ∧
    payoutValidator (payoutApply c8OkState 0 1) 0 1 =
      .error .AlreadyClaimed ∧
    payoutValidatorRun (payoutApply c8OkState 0 1) 0 1 =
      payoutApply c8OkState 0 1 :=
  c8_payout_claim_once c8OkState 0 1 1000 rfl (by decide) (by decide)
    (by decide) (by decide)

end Staking
